import Mathlib

/-
Verification development for the ObfusLite encoder framework.

Shallow embedding conventions:
* a Python `str` is modelled as the list of its Unicode code points (`List Nat`);
* Python `bytes` are modelled as lists of naturals below 256;
* a Python `'0'/'1'` bit string is modelled as a `List Bool`;
* a Python `dict` is modelled as an insertion-ordered association list whose
  assignment operation overwrites the existing binding of a key;
* randomness drawn by `random.*` / `np.random.*` during `encode` is passed in
  as explicit arguments (the drawn values themselves), since every draw in the
  sources happens independently of the data being encoded.
-/

set_option maxRecDepth 100000

/-- Code points of a Lean string literal; used to transcribe the Python string
literals appearing in the sources. -/
def S (s : String) : List Nat := s.data.map Char.toNat

/-- Python `dict` assignment `m[k] = v` on an association list: overwrites the
existing binding if present, otherwise appends. -/
def dictSet [BEq α] : List (α × β) → α → β → List (α × β)
  | [], k, v => [(k, v)]
  | (k', v') :: rest, k, v =>
      if k' == k then (k, v) :: rest else (k', v') :: dictSet rest k v

/-- Python `m[k]`-style lookup (`k in m` / `m.get(k)`) on an association list. -/
def dictGet? [BEq α] : List (α × β) → α → Option β
  | [], _ => none
  | (k', v') :: rest, k => if k' == k then some v' else dictGet? rest k

/-- `[data[i:i+n] for i in range(0, len(data), n)]`, via a fuel argument so the
definition is structurally recursive and kernel-reducible. -/
def chunksAux (n : Nat) : Nat → List α → List (List α)
  | 0, _ => []
  | _, [] => []
  | fuel + 1, l => l.take n :: chunksAux n fuel (l.drop n)

/-- Split a list into consecutive chunks of size `n` (last chunk may be short),
as Python's stride slicing does. -/
def pyChunks (n : Nat) (l : List α) : List (List α) :=
  chunksAux n l.length l

/-- Python `text.split(sep)` for a one-character separator. -/
def pySplit (sep : Nat) : List Nat → List (List Nat)
  | [] => [[]]
  | c :: rest =>
      let r := pySplit sep rest
      if c == sep then [] :: r
      else
        match r with
        | g :: gs => (c :: g) :: gs
        | [] => [[c]]

/-- Python `sep.join(parts)`. -/
def pyJoin (sep : List Nat) : List (List Nat) → List Nat
  | [] => []
  | [x] => x
  | x :: xs => x ++ sep ++ pyJoin sep xs

/-- Python `str.isalpha` on a single code point, transcribed for the Latin-1
range (all theorems below apply it to code points under 256 only). -/
def pyIsAlpha (c : Nat) : Bool :=
  (65 ≤ c && c ≤ 90) || (97 ≤ c && c ≤ 122) || c == 170 || c == 181 || c == 186 ||
  (192 ≤ c && c ≤ 214) || (216 ≤ c && c ≤ 246) || (248 ≤ c && c ≤ 255)

/-- Python `str.isupper` on a single code point, transcribed for the Latin-1
range. -/
def pyIsUpper (c : Nat) : Bool :=
  (65 ≤ c && c ≤ 90) || (192 ≤ c && c ≤ 214) || (216 ≤ c && c ≤ 222)

/-- The base64 alphabet, as code points. -/
def b64Alphabet : List Nat :=
  S "ABCDEFGHIJKLMNOPQRSTUVWXYZabcdefghijklmnopqrstuvwxyz0123456789+/"

/-- Code point of the base64 character for a 6-bit value. -/
def b64Char (n : Nat) : Nat := b64Alphabet.getD n 65

/-- 6-bit value of a base64 character. -/
def b64Value (c : Nat) : Nat := b64Alphabet.indexOf c

/-- `base64.b64encode` on a byte list, returning the code points of the ASCII
result (the sources immediately `.decode('ascii')` it). -/
def b64e : List Nat → List Nat
  | [] => []
  | [b1] => [b64Char (b1 / 4), b64Char (b1 % 4 * 16), 61, 61]
  | [b1, b2] =>
      [b64Char (b1 / 4), b64Char (b1 % 4 * 16 + b2 / 16), b64Char (b2 % 16 * 4), 61]
  | b1 :: b2 :: b3 :: rest =>
      b64Char (b1 / 4) :: b64Char (b1 % 4 * 16 + b2 / 16) ::
      b64Char (b2 % 16 * 4 + b3 / 64) :: b64Char (b3 % 64) :: b64e rest

/-- `base64.b64decode` on the code points of a base64 string, returning bytes
(`61` is the code point of the padding character). -/
def b64d : List Nat → List Nat
  | c1 :: c2 :: c3 :: c4 :: rest =>
      if c3 == 61 && c4 == 61 && rest == [] then
        [b64Value c1 * 4 + b64Value c2 / 16]
      else if c4 == 61 && rest == [] then
        [b64Value c1 * 4 + b64Value c2 / 16, b64Value c2 % 16 * 16 + b64Value c3 / 4]
      else
        (b64Value c1 * 4 + b64Value c2 / 16) :: (b64Value c2 % 16 * 16 + b64Value c3 / 4) ::
        (b64Value c3 % 4 * 64 + b64Value c4) :: b64d rest
  | _ => []

/-- `str.encode('utf-8')`. -/
def utf8e : List Nat → List Nat
  | [] => []
  | c :: rest =>
      (if c < 128 then [c]
       else if c < 2048 then [192 + c / 64, 128 + c % 64]
       else if c < 65536 then [224 + c / 4096, 128 + c / 64 % 64, 128 + c % 64]
       else [240 + c / 262144, 128 + c / 4096 % 64, 128 + c / 64 % 64, 128 + c % 64])
      ++ utf8e rest

/-- Worker for `bytes.decode('utf-8')`, structurally recursive on a fuel
argument so that its equations reduce in the kernel. -/
def utf8dAux : Nat → List Nat → List Nat
  | 0, _ => []
  | _, [] => []
  | fuel + 1, b :: rest =>
      if b < 128 then b :: utf8dAux fuel rest
      else if b < 224 then
        match rest with
        | [] => []
        | b2 :: rest2 => ((b - 192) * 64 + (b2 - 128)) :: utf8dAux fuel rest2
      else if b < 240 then
        match rest with
        | b2 :: b3 :: rest3 =>
            ((b - 224) * 4096 + (b2 - 128) * 64 + (b3 - 128)) :: utf8dAux fuel rest3
        | _ => []
      else
        match rest with
        | b2 :: b3 :: b4 :: rest4 =>
            ((b - 240) * 262144 + (b2 - 128) * 4096 + (b3 - 128) * 64 + (b4 - 128)) ::
            utf8dAux fuel rest4
        | _ => []

/-- `bytes.decode('utf-8')`; only ever applied below to valid encoder output.
Each decoding step consumes at least one byte, so `l.length` fuel suffices. -/
def utf8d (l : List Nat) : List Nat := utf8dAux l.length l

/-- `text.encode('latin-1')`: the identity on code points below 256. -/
def latin1e (l : List Nat) : List Nat := l

/-- `bytes.decode('latin-1')`: the identity. -/
def latin1d (l : List Nat) : List Nat := l

/-- The 64 MD5 sine-derived round constants. -/
def md5K : List Nat := [
  3614090360, 3905402710, 606105819, 3250441966, 4118548399, 1200080426, 2821735955, 4249261313,
  1770035416, 2336552879, 4294925233, 2304563134, 1804603682, 4254626195, 2792965006, 1236535329,
  4129170786, 3225465664, 643717713, 3921069994, 3593408605, 38016083, 3634488961, 3889429448,
  568446438, 3275163606, 4107603335, 1163531501, 2850285829, 4243563512, 1735328473, 2368359562,
  4294588738, 2272392833, 1839030562, 4259657740, 2763975236, 1272893353, 4139469664, 3200236656,
  681279174, 3936430074, 3572445317, 76029189, 3654602809, 3873151461, 530742520, 3299628645,
  4096336452, 1126891415, 2878612391, 4237533241, 1700485571, 2399980690, 4293915773, 2240044497,
  1873313359, 4264355552, 2734768916, 1309151649, 4149444226, 3174756917, 718787259, 3951481745]

/-- The MD5 per-round left-rotation amounts. -/
def md5S : List Nat := [
  7, 12, 17, 22, 7, 12, 17, 22, 7, 12, 17, 22, 7, 12, 17, 22,
  5, 9, 14, 20, 5, 9, 14, 20, 5, 9, 14, 20, 5, 9, 14, 20,
  4, 11, 16, 23, 4, 11, 16, 23, 4, 11, 16, 23, 4, 11, 16, 23,
  6, 10, 15, 21, 6, 10, 15, 21, 6, 10, 15, 21, 6, 10, 15, 21]

/-- 32-bit left rotation on naturals below `2 ^ 32`. -/
def rotl32 (x n : Nat) : Nat := (x * 2 ^ n + x / 2 ^ (32 - n)) % 4294967296

/-- One MD5 round: `i` is the round index, `m` the 16 message words. -/
def md5Round (m : List Nat) (st : Nat × Nat × Nat × Nat) (i : Nat) :
    Nat × Nat × Nat × Nat :=
  let (a, b, c, d) := st
  let mask := 4294967295
  let f :=
    if i < 16 then (b &&& c) ||| ((mask ^^^ b) &&& d)
    else if i < 32 then (d &&& b) ||| ((mask ^^^ d) &&& c)
    else if i < 48 then b ^^^ c ^^^ d
    else c ^^^ (b ||| (mask ^^^ d))
  let g :=
    if i < 16 then i
    else if i < 32 then (5 * i + 1) % 16
    else if i < 48 then (3 * i + 5) % 16
    else 7 * i % 16
  let f' := (f + a + md5K.getD i 0 + m.getD g 0) % 4294967296
  (d, (b + rotl32 f' (md5S.getD i 0)) % 4294967296, b, c)

/-- Convert one 64-byte MD5 block into its 16 little-endian 32-bit words. -/
def md5Words (block : List Nat) : List Nat :=
  (pyChunks 4 block).map fun w =>
    w.getD 0 0 + 256 * w.getD 1 0 + 65536 * w.getD 2 0 + 16777216 * w.getD 3 0

/-- Process one MD5 block, updating the running state. -/
def md5Block (st : Nat × Nat × Nat × Nat) (block : List Nat) : Nat × Nat × Nat × Nat :=
  let m := md5Words block
  let (a, b, c, d) := (List.range 64).foldl (md5Round m) st
  let (a0, b0, c0, d0) := st
  ((a0 + a) % 4294967296, (b0 + b) % 4294967296, (c0 + c) % 4294967296, (d0 + d) % 4294967296)

/-- MD5 padding: append `0x80`, zero bytes to 56 mod 64, then the bit length
as a little-endian 64-bit integer. -/
def md5Pad (msg : List Nat) : List Nat :=
  let zeros := (119 - msg.length % 64) % 64
  msg ++ 128 :: List.replicate zeros 0 ++
    (List.range 8).map fun i => 8 * msg.length / 2 ^ (8 * i) % 256

/-- Little-endian byte serialization of a 32-bit word. -/
def le4 (x : Nat) : List Nat := [x % 256, x / 256 % 256, x / 65536 % 256, x / 16777216 % 256]

/-- The 16 MD5 digest bytes of a byte message. -/
def md5Digest (msg : List Nat) : List Nat :=
  let (a, b, c, d) :=
    (pyChunks 64 (md5Pad msg)).foldl md5Block (1732584193, 4023233417, 2562383102, 271733878)
  le4 a ++ le4 b ++ le4 c ++ le4 d

/-- Code point of a lowercase hexadecimal digit. -/
def hexDigit (n : Nat) : Nat := if n < 10 then 48 + n else 87 + n

/-- `hashlib.md5(msg).hexdigest()` as code points. -/
def md5HexDigest (msg : List Nat) : List Nat :=
  (md5Digest msg).flatMap fun b => [hexDigit (b / 16), hexDigit (b % 16)]

/-- `hashlib.md5(chunk.encode()).hexdigest()[:8]`, the chunk-token function of
`FastHashEncoder.encode`. -/
def md5Hex8 (chunk : List Nat) : List Nat := (md5HexDigest (utf8e chunk)).take 8

/-- Number of binary digits of a positive natural (fuel-structural so it
reduces in the kernel; halving terminates well before the fuel runs out). -/
def bitLenAux : Nat → Nat → Nat
  | 0, _ => 0
  | fuel + 1, n => if n = 0 then 0 else bitLenAux fuel (n / 2) + 1

/-- `format(n, 'b')`-style binary digits, most significant first
(one digit for zero, at least 8 with the `'08b'` zero padding). -/
def pyFormat08b (c : Nat) : List Bool :=
  let width := max 8 (if c = 0 then 1 else bitLenAux c c)
  ((List.range width).reverse).map fun i => c.testBit i

/-- `int(bits, 2)` on a `'0'/'1'` string modelled as booleans. -/
def binToNat (bits : List Bool) : Nat :=
  bits.foldl (fun acc b => 2 * acc + (if b then 1 else 0)) 0

/-- `''.join(format(ord(char), '08b') for char in data)`, the text-to-binary
step shared by the binary, neural and steganographic encoders. -/
def pyBinStr (data : List Nat) : List Bool := data.flatMap pyFormat08b

/-- Decimal digits of a natural, as code points (`str(n)`). -/
def decStr (n : Nat) : List Nat := (Nat.toDigits 10 n).map Char.toNat

/-- The result dictionary `{'encoded': ..., 'metadata': ...}` every encoder's
`encode` returns. -/
structure EncodeResult (μ : Type) where
  encoded : List Nat
  metadata : μ
deriving DecidableEq

/-- Metadata of `SimpleEncoder`. -/
structure SimpleMetadata where
  key : Nat
  original_length : Nat
deriving DecidableEq

/-- `SimpleEncoder.encode`; `key` is the value drawn by `random.randint(1, 255)`. -/
def simpleEncode (key : Nat) (data : List Nat) : EncodeResult SimpleMetadata :=
  let data_bytes := utf8e data
  let encoded_bytes := data_bytes.map fun b => b ^^^ key
  { encoded := b64e encoded_bytes,
    metadata := { key := key, original_length := data.length } }

/-- `SimpleEncoder.decode`. -/
def simpleDecode (encoded_data : List Nat) (metadata : SimpleMetadata) : List Nat :=
  let encoded_bytes := b64d encoded_data
  let original_bytes := encoded_bytes.map fun b => b ^^^ metadata.key
  utf8d original_bytes

/-- Metadata of `FastXOREncoder`. -/
structure FastXORMetadata where
  keys : List Nat
  original_length : Nat
deriving DecidableEq

/-- `FastXOREncoder.encode`; `zcompress` stands for the external `zlib.compress`
and `keys` for the four values drawn by `random.randint(1, 255)`. -/
def fastXOREncode (zcompress : List Nat → List Nat) (keys : List Nat)
    (data : List Nat) : EncodeResult FastXORMetadata :=
  let data_bytes := utf8e data
  let encoded_bytes := data_bytes.mapIdx fun i b => b ^^^ keys.getD (i % keys.length) 0
  { encoded := b64e (zcompress encoded_bytes),
    metadata := { keys := keys, original_length := data.length } }

/-- `FastXOREncoder.decode`; `zdecompress` stands for the external
`zlib.decompress`. -/
def fastXORDecode (zdecompress : List Nat → List Nat) (encoded_data : List Nat)
    (metadata : FastXORMetadata) : List Nat :=
  let compressed := b64d encoded_data
  let encoded_bytes := zdecompress compressed
  utf8d (encoded_bytes.mapIdx fun i b => b ^^^ metadata.keys.getD (i % metadata.keys.length) 0)

/-- Metadata of `FastBase64Encoder`. -/
structure FastBase64Metadata where
  char_map : List (Nat × Nat)
  original_length : Nat
deriving DecidableEq

/-- `string.ascii_letters + string.digits + '+/='`. -/
def fastB64Chars : List Nat :=
  S "abcdefghijklmnopqrstuvwxyzABCDEFGHIJKLMNOPQRSTUVWXYZ0123456789+/="

/-- `FastBase64Encoder.encode`; `shuffled` is the result of `random.shuffle`
on the character list. -/
def fastBase64Encode (shuffled : List Nat) (data : List Nat) :
    EncodeResult FastBase64Metadata :=
  let char_map := fastB64Chars.zip shuffled
  let encoded_str := b64e (utf8e data)
  let substituted := encoded_str.map fun c => (dictGet? char_map c).getD c
  { encoded := substituted,
    metadata := { char_map := char_map, original_length := data.length } }

/-- `FastBase64Encoder.decode`. -/
def fastBase64Decode (encoded_data : List Nat) (metadata : FastBase64Metadata) :
    List Nat :=
  let reverse_map := metadata.char_map.foldl (fun m kv => dictSet m kv.2 kv.1) []
  let original_b64 := encoded_data.map fun c => (dictGet? reverse_map c).getD c
  utf8d (b64d original_b64)

/-- Metadata of `FastRotationEncoder`. -/
structure FastRotationMetadata where
  rotations : List Nat
  original_length : Nat
deriving DecidableEq

/-- One character of the Caesar-rotation loop in `FastRotationEncoder.encode`. -/
def rotEncChar (rotation : Nat) (c : Nat) : Nat :=
  if pyIsAlpha c then
    let base : Int := if pyIsUpper c then 65 else 97
    ((((c : Int) - base + rotation) % 26) + base).toNat
  else c

/-- One character of the reverse rotation loop in `FastRotationEncoder.decode`. -/
def rotDecChar (rotation : Nat) (c : Nat) : Nat :=
  if pyIsAlpha c then
    let base : Int := if pyIsUpper c then 65 else 97
    ((((c : Int) - base - rotation) % 26) + base).toNat
  else c

/-- `FastRotationEncoder.encode`; `rotations` are the three values drawn by
`random.randint(1, 25)`. -/
def fastRotationEncode (rotations : List Nat) (data : List Nat) :
    EncodeResult FastRotationMetadata :=
  let encoded := rotations.foldl (fun acc r => acc.map (rotEncChar r)) data
  { encoded := b64e (utf8e encoded),
    metadata := { rotations := rotations, original_length := data.length } }

/-- `FastRotationEncoder.decode`. -/
def fastRotationDecode (encoded_data : List Nat) (metadata : FastRotationMetadata) :
    List Nat :=
  let encoded := utf8d (b64d encoded_data)
  metadata.rotations.reverse.foldl (fun acc r => acc.map (rotDecChar r)) encoded

/-- Metadata of `FastHashEncoder`. -/
structure FastHashMetadata where
  hash_map : List (List Nat × List Nat)
  original_length : Nat
deriving DecidableEq

/-- `FastHashEncoder.encode` (its only per-call variability is the input). -/
def fastHashEncode (data : List Nat) : EncodeResult FastHashMetadata :=
  let chunks := pyChunks 8 data
  let built := chunks.foldl
    (fun (st : List (List Nat × List Nat) × List (List Nat)) chunk =>
      let chunk_hash := md5Hex8 chunk
      (dictSet st.1 chunk_hash chunk, st.2 ++ [chunk_hash]))
    ([], [])
  { encoded := pyJoin [124] built.2,
    metadata := { hash_map := built.1, original_length := data.length } }

/-- `FastHashEncoder.decode`: tokens absent from the table are dropped by the
`if h in hash_map` guard. -/
def fastHashDecode (encoded_data : List Nat) (metadata : FastHashMetadata) :
    List Nat :=
  let hashes := pySplit 124 encoded_data
  (hashes.filterMap fun h => dictGet? metadata.hash_map h).flatten

/-- Metadata of `FastBinaryEncoder`. -/
structure FastBinaryMetadata where
  shift : Nat
  original_length : Nat
deriving DecidableEq

/-- Python `byte[-shift:] + byte[:-shift]` (the right-rotation used in
`FastBinaryEncoder.decode`), including the degenerate `shift = 0` reading. -/
def pyRotSliceBack (shift : Nat) (byte : List Bool) : List Bool :=
  if shift = 0 then byte
  else byte.drop (byte.length - shift) ++ byte.take (byte.length - shift)

/-- `FastBinaryEncoder.encode`; `shift` is the value drawn by
`random.randint(1, 7)`. -/
def fastBinaryEncode (shift : Nat) (data : List Nat) :
    EncodeResult FastBinaryMetadata :=
  let binary := pyBinStr data
  let shifted_bits := (pyChunks 8 binary).filterMap fun byte =>
    if byte.length = 8 then some (byte.drop shift ++ byte.take shift) else none
  let shifted_binary := shifted_bits.flatten
  let encoded_chars := (pyChunks 8 shifted_binary).filterMap fun byte =>
    if byte.length = 8 then some (binToNat byte) else none
  { encoded := b64e (latin1e encoded_chars),
    metadata := { shift := shift, original_length := data.length } }

/-- `FastBinaryEncoder.decode`. -/
def fastBinaryDecode (encoded_data : List Nat) (metadata : FastBinaryMetadata) :
    List Nat :=
  let encoded_str := latin1d (b64d encoded_data)
  let binary := pyBinStr encoded_str
  let original_bits := (pyChunks 8 binary).filterMap fun byte =>
    if byte.length = 8 then some (pyRotSliceBack metadata.shift byte) else none
  let original_binary := original_bits.flatten
  (pyChunks 8 original_binary).filterMap fun byte =>
    if byte.length = 8 then some (binToNat byte) else none

/-- Metadata of `FastLookupEncoder`. -/
structure FastLookupMetadata where
  lookup_table : List (Nat × List Nat)
  original_length : Nat
deriving DecidableEq

/-- `f"#{i:04d}#"`, the synthetic token for table slot `i`. -/
def lookupToken (i : Nat) : List Nat :=
  35 :: (List.replicate (4 - (decStr i).length) 48 ++ decStr i) ++ [35]

/-- `FastLookupEncoder.encode`; `shuffled` is `list(set(data))` after
`random.shuffle`, supplied by the random source. -/
def fastLookupEncode (shuffled : List Nat) (data : List Nat) :
    EncodeResult FastLookupMetadata :=
  let lookup_table := shuffled.enum.foldl
    (fun t (p : Nat × Nat) => dictSet t p.2 (lookupToken p.1)) []
  let encoded_str := data.flatMap fun c => (dictGet? lookup_table c).getD []
  { encoded := encoded_str,
    metadata := { lookup_table := lookup_table, original_length := data.length } }

/-- `encoded_data.find('#', i + 1)`: split a list at the first occurrence of
`sep`, returning the parts before and after it. -/
def findSplit (sep : Nat) : List Nat → Option (List Nat × List Nat)
  | [] => none
  | c :: rest =>
      if c == sep then some ([], rest)
      else (findSplit sep rest).map fun p => (c :: p.1, p.2)

/-- The scanning `while` loop of `FastLookupEncoder.decode`: tokens missing
from the reverse table are skipped silently. Fuel-structural; every step
consumes at least one character, so the length suffices as fuel. -/
def lookupScanAux (rt : List (List Nat × Nat)) : Nat → List Nat → List Nat
  | 0, _ => []
  | _, [] => []
  | fuel + 1, c :: rest =>
      if c == 35 then
        match findSplit 35 rest with
        | some (before, after) =>
            let token := 35 :: (before ++ [35])
            (match dictGet? rt token with
             | some ch => [ch]
             | none => []) ++ lookupScanAux rt fuel after
        | none => lookupScanAux rt fuel rest
      else lookupScanAux rt fuel rest

/-- `FastLookupEncoder.decode`. -/
def fastLookupDecode (encoded_data : List Nat) (metadata : FastLookupMetadata) :
    List Nat :=
  let reverse_table := metadata.lookup_table.foldl (fun t kv => dictSet t kv.2 kv.1) []
  lookupScanAux reverse_table encoded_data.length encoded_data

/-- The tag of a concrete encoder class in the registry. -/
inductive EncoderClass where
  | fastXOR | fastBase64 | fastRotation | fastHash | fastBinary | fastLookup | simple
  | quantum | dna | fractal | neural | steganographic | runtime | tensor
deriving DecidableEq

/-- The `*_AVAILABLE` flags resolved by the optional imports at the top of
`obfuslite/encoders/__init__.py`. -/
structure DepFlags where
  quantum : Bool
  dna : Bool
  fractal : Bool
  neural : Bool
  steganographic : Bool
  runtime : Bool
  tensor : Bool

/-- `_ENCODER_REGISTRY`: the seven fast entries followed by each advanced
entry its availability flag admits, in declaration order. -/
def encoderRegistry (f : DepFlags) : List (String × EncoderClass) :=
  [("fast_xor", .fastXOR), ("fast_base64", .fastBase64), ("fast_rotation", .fastRotation),
   ("fast_hash", .fastHash), ("fast_binary", .fastBinary), ("fast_lookup", .fastLookup),
   ("simple", .simple)]
  ++ (if f.quantum then [("quantum", .quantum)] else [])
  ++ (if f.dna then [("dna", .dna)] else [])
  ++ (if f.fractal then [("fractal", .fractal)] else [])
  ++ (if f.neural then [("neural", .neural)] else [])
  ++ (if f.steganographic then [("steganographic", .steganographic)] else [])
  ++ (if f.runtime then [("runtime", .runtime)] else [])
  ++ (if f.tensor then [("tensor", .tensor)] else [])

/-- `get_available_techniques()`: the registry keys in insertion order. -/
def getAvailableTechniques (f : DepFlags) : List String :=
  (encoderRegistry f).map (·.1)

/-- `get_fast_techniques()`: a hard-coded list. -/
def getFastTechniques : List String :=
  ["fast_xor", "fast_base64", "fast_rotation", "fast_hash", "fast_binary",
   "fast_lookup", "simple"]

/-- `get_advanced_techniques()`: one conditional append per availability flag. -/
def getAdvancedTechniques (f : DepFlags) : List String :=
  (if f.quantum then ["quantum"] else [])
  ++ (if f.dna then ["dna"] else [])
  ++ (if f.fractal then ["fractal"] else [])
  ++ (if f.neural then ["neural"] else [])
  ++ (if f.steganographic then ["steganographic"] else [])
  ++ (if f.runtime then ["runtime"] else [])
  ++ (if f.tensor then ["tensor"] else [])

/-- `get_encoder_class(technique)`: `_ENCODER_REGISTRY.get(technique)`, i.e.
`None` rather than an exception when the name is absent. -/
def getEncoderClass (f : DepFlags) (technique : String) : Option EncoderClass :=
  dictGet? (encoderRegistry f) technique

/-- `create_encoder(technique)`: also `None` when the name is absent. -/
def createEncoder (f : DepFlags) (technique : String) : Option EncoderClass :=
  match getEncoderClass f technique with
  | some cls => some cls
  | none => none

/-- The `while current_size > 8` loop of
`NeuralEncoder._design_network_architecture`, fuel-structural (the size at
least halves every step, so the input size is ample fuel). -/
def hiddenLayersAux : Nat → Nat → List Nat
  | 0, _ => []
  | fuel + 1, current =>
      if 8 < current then
        let nxt := max 8 (current / 2)
        nxt :: hiddenLayersAux fuel nxt
      else []

/-- `NeuralEncoder._design_network_architecture`. -/
def designNetworkArchitecture (input_size : Nat) : List Nat :=
  let layers := input_size :: hiddenLayersAux input_size input_size
  let layers := layers ++ [max 4 (input_size / 16)]
  layers ++ (layers.dropLast.reverse).drop 1

/-- Metadata of `NeuralEncoder` — note it has exactly these four keys. -/
structure NeuralMetadata where
  architecture : List Nat
  original_length : Nat
  binary_length : Nat
  network_depth : Nat
deriving DecidableEq

/-- The observable randomness skeleton of `NeuralEncoder.encode`: the returned
metadata together with `data_indices`, the index sequence drawn by
`np.random.choice(weight_matrix.size, min(len(data_array), weight_matrix.size),
replace=False)` in `_create_encoding_network` for the first layer. The random
source supplies the drawn indices directly (`indices`); the floating-point
weight and bias contents are irrelevant to which values reach the metadata and
are omitted. -/
structure NeuralEncodeTrace where
  metadata : NeuralMetadata
  dataIndices : List Nat
deriving DecidableEq

/-- `NeuralEncoder.encode`, restricted to its metadata and its first-layer
random placement draw (see `NeuralEncodeTrace`). -/
def neuralEncodeTrace (indices : List Nat) (data : List Nat) : NeuralEncodeTrace :=
  let binary := pyBinStr data
  let architecture := designNetworkArchitecture binary.length
  let wsize := architecture.getD 0 0 * architecture.getD 1 0
  { metadata :=
      { architecture := architecture
        original_length := data.length
        binary_length := binary.length
        network_depth := architecture.length - 1 }
    dataIndices := indices.take (min binary.length wsize) }

/-- Validity of a `np.random.choice(n, k, replace=False)` draw: `k` pairwise
distinct indices below `n`. -/
def ValidChoice (n k : Nat) (indices : List Nat) : Prop :=
  indices.length = k ∧ indices.Nodup ∧ ∀ i ∈ indices, i < n

/-- `SteganographicEncoder.lorem_words`. -/
def loremWords : List (List Nat) :=
  ["lorem", "ipsum", "dolor", "sit", "amet", "consectetur", "adipiscing", "elit",
   "sed", "do", "eiusmod", "tempor", "incididunt", "ut", "labore", "et", "dolore",
   "magna", "aliqua", "enim", "ad", "minim", "veniam", "quis", "nostrud",
   "exercitation", "ullamco", "laboris", "nisi", "aliquip", "ex", "ea", "commodo",
   "consequat", "duis", "aute", "irure", "in", "reprehenderit", "voluptate",
   "velit", "esse", "cillum", "fugiat", "nulla", "pariatur", "excepteur", "sint",
   "occaecat", "cupidatat", "non", "proident", "sunt", "culpa", "qui", "officia",
   "deserunt", "mollit", "anim", "id", "est", "laborum"].map S

/-- One step of the random source for `_lorem_ipsum_cover`: the
`random.choice` index for the data word, the `random.random() < 0.3` decision,
and the `random.choice` index for the optional filler word. -/
structure LoremDraw where
  choiceIdx : Nat
  extra : Bool
  extraIdx : Nat

/-- The word-accumulation loop of `SteganographicEncoder._lorem_ipsum_cover`:
one data word per bit (odd length for a `1` bit, even length for a `0` bit),
plus an optional random filler word; `random.choice` is modelled as indexing
by the drawn value modulo the candidate count. -/
def loremCoverWords (rng : Nat → LoremDraw) : Nat → List Bool → List (List Nat)
  | _, [] => []
  | k, bit :: rest =>
      let draw := rng k
      let candidates := loremWords.filter fun w => w.length % 2 == (if bit then 1 else 0)
      let word :=
        if candidates.isEmpty then loremWords.getD (draw.choiceIdx % loremWords.length) []
        else candidates.getD (draw.choiceIdx % candidates.length) []
      (word :: (if draw.extra then [loremWords.getD (draw.extraIdx % loremWords.length) []]
                else []))
      ++ loremCoverWords rng (k + 1) rest

/-- `SteganographicEncoder._lorem_ipsum_cover`: the generated words joined by
spaces, with the final `'.'`. -/
def loremCover (rng : Nat → LoremDraw) (binary_data : List Bool) : List Nat :=
  pyJoin [32] (loremCoverWords rng 0 binary_data) ++ [46]

/-- `SteganographicEncoder._apply_steganographic_layers` on a string cover:
set the least significant bit of each character code while data bits remain. -/
def applyStegLayers : List Nat → List Bool → List Nat
  | [], _ => []
  | c :: rest, [] => c :: applyStegLayers rest []
  | c :: rest, bit :: bits =>
      ((c &&& 254) ||| (if bit then 1 else 0)) :: applyStegLayers rest bits

/-- `SteganographicEncoder._extract_from_steganographic_layers`: the least
significant bit of every cover character. -/
def extractStegLayers (cover_data : List Nat) : List Bool :=
  cover_data.map fun c => c &&& 1 == 1

/-- `SteganographicEncoder._binary_to_string` (shared verbatim with
`NeuralEncoder._binary_to_string`): pad to a byte boundary, turn each byte
into a character, truncate to the original length. -/
def binaryToString (binary_data : List Bool) (original_length : Nat) : List Nat :=
  let padded := binary_data ++ List.replicate ((8 - binary_data.length % 8) % 8) false
  let chars := (pyChunks 8 padded).filterMap fun byte =>
    if byte.length = 8 then some (binToNat byte) else none
  chars.take original_length

/-- `names` of `SteganographicEncoder._fake_data_cover`. -/
def fakeNames : List (List Nat) :=
  ["Alice", "Bob", "Charlie", "Diana", "Eve", "Frank", "Grace", "Henry"].map S

/-- `cities` of `SteganographicEncoder._fake_data_cover`. -/
def fakeCities : List (List Nat) :=
  ["New York", "London", "Tokyo", "Paris", "Berlin", "Sydney", "Toronto"].map S

/-- One fake database record. `score` holds the drawn 7-bit value `n`; the
JSON rendering prints it as the Python float `n / 100.0`. -/
structure FakeRecord where
  id : Nat
  name : List Nat
  city : List Nat
  active : Bool
  score : Nat
deriving DecidableEq

/-- The record loop of `SteganographicEncoder._fake_data_cover`: each record
consumes one `active` bit and, when more than seven bits remain, seven `score`
bits; generation stops once 20 records exist. Fuel-structural on the bit
count; `k` counts the records built so far. -/
def fakeDataAux (rngName rngCity : Nat → Nat) : Nat → Nat → List Bool → List FakeRecord
  | 0, _, _ => []
  | _, _, [] => []
  | fuel + 1, k, bit :: rest =>
      let record : FakeRecord :=
        { id := k + 1
          name := fakeNames.getD (rngName k % fakeNames.length) []
          city := fakeCities.getD (rngCity k % fakeCities.length) []
          active := bit
          score := if 7 < rest.length then binToNat (rest.take 7) else 0 }
      if 20 ≤ k + 1 then [record]
      else record :: fakeDataAux rngName rngCity fuel (k + 1)
        (if 7 < rest.length then rest.drop 7 else rest)

/-- `SteganographicEncoder._fake_data_cover`; the two random sources supply
the `random.choice` draws for names and cities. -/
def fakeDataCover (rngName rngCity : Nat → Nat) (binary_data : List Bool) :
    List FakeRecord :=
  fakeDataAux rngName rngCity binary_data.length 0 binary_data

/-- Python `repr`/`json.dumps` of the float `n / 100.0` for `n < 128` (the
only scores `_fake_data_cover` produces): verified against CPython for every
such `n`. -/
def scoreRepr (n : Nat) : List Nat :=
  if n % 100 = 0 then decStr (n / 100) ++ S ".0"
  else if n % 10 = 0 then decStr (n / 100) ++ [46] ++ decStr (n / 10 % 10)
  else decStr (n / 100) ++ [46] ++ (if n % 100 < 10 then [48] else []) ++ decStr (n % 100)

/-- `json.dumps` of one fake record, with CPython's default separators and
insertion-ordered keys. -/
def jsonRecord (r : FakeRecord) : List Nat :=
  S "\x7b\"id\": " ++ decStr r.id ++ S ", \"name\": \"" ++ r.name ++ S "\", \"city\": \"" ++
  r.city ++ S "\", \"active\": " ++ (if r.active then S "true" else S "false") ++
  S ", \"score\": " ++ scoreRepr r.score ++ [125]

/-- `json.dumps` of the fake-record list (the `cover_str` that
`_apply_steganographic_layers` operates on for the `fake_data` cover type). -/
def jsonRecords (rs : List FakeRecord) : List Nat :=
  [91] ++ pyJoin (S ", ") (rs.map jsonRecord) ++ [93]

/-- The hidden state of the process-global `random` module. -/
structure PyRandomState where
  state : Nat
deriving DecidableEq

/-- `SimpleEncoder.decode` lifted to explicit threading of the global random
state: its body contains no `random.*` call, so the translation neither reads
nor writes the state. -/
def simpleDecodeR (encoded_data : List Nat) (metadata : SimpleMetadata)
    (g : PyRandomState) : List Nat × PyRandomState :=
  (simpleDecode encoded_data metadata, g)

/-- `FastXOREncoder.decode` lifted to explicit threading of the global random
state; like the source body, it draws nothing. -/
def fastXORDecodeR (zdecompress : List Nat → List Nat) (encoded_data : List Nat)
    (metadata : FastXORMetadata) (g : PyRandomState) : List Nat × PyRandomState :=
  (fastXORDecode zdecompress encoded_data metadata, g)

theorem b64Value_b64Char {n : Nat} (h : n < 64) : b64Value (b64Char n) = n := by
  interval_cases n <;> decide

theorem b64Char_ne_pad {n : Nat} (h : n < 64) : b64Char n ≠ 61 := by
  interval_cases n <;> decide

theorem b64d_cons (c1 c2 c3 c4 : Nat) (rest : List Nat) :
    b64d (c1 :: c2 :: c3 :: c4 :: rest) =
      if c3 == 61 && c4 == 61 && rest == [] then
        [b64Value c1 * 4 + b64Value c2 / 16]
      else if c4 == 61 && rest == [] then
        [b64Value c1 * 4 + b64Value c2 / 16, b64Value c2 % 16 * 16 + b64Value c3 / 4]
      else
        (b64Value c1 * 4 + b64Value c2 / 16) :: (b64Value c2 % 16 * 16 + b64Value c3 / 4) ::
        (b64Value c3 % 4 * 64 + b64Value c4) :: b64d rest := rfl

theorem b64_roundtrip : ∀ l : List Nat, (∀ b ∈ l, b < 256) → b64d (b64e l) = l := by
  intro l
  induction l using b64e.induct with
  | case1 => intro _; rfl
  | case2 b1 =>
      intro hb
      have h1 : b1 < 256 := hb b1 (by simp)
      have e1 : b1 / 4 < 64 := by omega
      have e2 : b1 % 4 * 16 < 64 := by omega
      show b64d [b64Char (b1 / 4), b64Char (b1 % 4 * 16), 61, 61] = [b1]
      rw [b64d_cons, if_pos (by simp)]
      rw [b64Value_b64Char e1, b64Value_b64Char e2]
      simp only [List.cons.injEq, and_true]
      omega
  | case3 b1 b2 =>
      intro hb
      have h1 : b1 < 256 := hb b1 (by simp)
      have h2 : b2 < 256 := hb b2 (by simp)
      have e1 : b1 / 4 < 64 := by omega
      have e2 : b1 % 4 * 16 + b2 / 16 < 64 := by omega
      have e3 : b2 % 16 * 4 < 64 := by omega
      show b64d [b64Char (b1 / 4), b64Char (b1 % 4 * 16 + b2 / 16),
        b64Char (b2 % 16 * 4), 61] = [b1, b2]
      rw [b64d_cons, if_neg (by simp [b64Char_ne_pad e3]), if_pos (by simp)]
      rw [b64Value_b64Char e1, b64Value_b64Char e2, b64Value_b64Char e3]
      simp only [List.cons.injEq, and_true]
      constructor
      · omega
      · omega
  | case4 b1 b2 b3 rest ih =>
      intro hb
      have h1 : b1 < 256 := hb b1 (by simp)
      have h2 : b2 < 256 := hb b2 (by simp)
      have h3 : b3 < 256 := hb b3 (by simp)
      have e1 : b1 / 4 < 64 := by omega
      have e2 : b1 % 4 * 16 + b2 / 16 < 64 := by omega
      have e3 : b2 % 16 * 4 + b3 / 64 < 64 := by omega
      have e4 : b3 % 64 < 64 := by omega
      show b64d (b64Char (b1 / 4) :: b64Char (b1 % 4 * 16 + b2 / 16) ::
        b64Char (b2 % 16 * 4 + b3 / 64) :: b64Char (b3 % 64) :: b64e rest) =
        b1 :: b2 :: b3 :: rest
      rw [b64d_cons, if_neg (by simp [b64Char_ne_pad e3]), if_neg (by simp [b64Char_ne_pad e4])]
      rw [b64Value_b64Char e1, b64Value_b64Char e2, b64Value_b64Char e3,
        b64Value_b64Char e4, ih (fun b hmem => hb b (by simp [hmem]))]
      simp only [List.cons.injEq, and_true]
      refine ⟨by omega, by omega, by omega⟩

theorem utf8dAux_succ_cons (n b : Nat) (rest : List Nat) :
    utf8dAux (n + 1) (b :: rest) =
      if b < 128 then b :: utf8dAux n rest
      else if b < 224 then
        match rest with
        | [] => []
        | b2 :: rest2 => ((b - 192) * 64 + (b2 - 128)) :: utf8dAux n rest2
      else if b < 240 then
        match rest with
        | b2 :: b3 :: rest3 =>
            ((b - 224) * 4096 + (b2 - 128) * 64 + (b3 - 128)) :: utf8dAux n rest3
        | _ => []
      else
        match rest with
        | b2 :: b3 :: b4 :: rest4 =>
            ((b - 240) * 262144 + (b2 - 128) * 4096 + (b3 - 128) * 64 + (b4 - 128)) ::
            utf8dAux n rest4
        | _ => [] := rfl

theorem utf8d_cons_ascii {b : Nat} (h : b < 128) (rest : List Nat) :
    utf8d (b :: rest) = b :: utf8d rest := by
  simp only [utf8d, List.length_cons, utf8dAux_succ_cons, if_pos h]

theorem utf8e_cons_ascii {c : Nat} (h : c < 128) (rest : List Nat) :
    utf8e (c :: rest) = c :: utf8e rest := by
  show (if c < 128 then [c]
       else if c < 2048 then [192 + c / 64, 128 + c % 64]
       else if c < 65536 then [224 + c / 4096, 128 + c / 64 % 64, 128 + c % 64]
       else [240 + c / 262144, 128 + c / 4096 % 64, 128 + c / 64 % 64, 128 + c % 64])
      ++ utf8e rest = c :: utf8e rest
  rw [if_pos h]
  rfl

theorem utf8_roundtrip_ascii :
    ∀ l : List Nat, (∀ c ∈ l, c < 128) → utf8d (utf8e l) = l := by
  intro l hl
  induction l with
  | nil => rfl
  | cons c rest ih =>
      have hc : c < 128 := hl c (by simp)
      rw [utf8e_cons_ascii hc, utf8d_cons_ascii hc,
        ih (fun b hmem => hl b (by simp [hmem]))]

theorem utf8e_ascii {l : List Nat} (h : ∀ c ∈ l, c < 128) : utf8e l = l := by
  induction l with
  | nil => rfl
  | cons c rest ih =>
      rw [utf8e_cons_ascii (h c (by simp)), ih fun b hb => h b (by simp [hb])]

theorem utf8d_ascii {l : List Nat} (h : ∀ c ∈ l, c < 128) : utf8d l = l := by
  induction l with
  | nil => rfl
  | cons c rest ih =>
      rw [utf8d_cons_ascii (h c (by simp)), ih fun b hb => h b (by simp [hb])]

theorem pyIsAlpha_ascii_cases {c : Nat} (hc : c < 128) (h : pyIsAlpha c = true) :
    (65 ≤ c ∧ c ≤ 90) ∨ (97 ≤ c ∧ c ≤ 122) := by
  unfold pyIsAlpha at h
  simp only [Bool.or_eq_true, Bool.and_eq_true, decide_eq_true_eq, beq_iff_eq] at h
  omega

theorem rot_upper_roundtrip (r : Nat) {c : Nat} (h1 : 65 ≤ c) (h2 : c ≤ 90) :
    65 ≤ rotEncChar r c ∧ rotEncChar r c ≤ 90 ∧ rotDecChar r (rotEncChar r c) = c := by
  have ha : pyIsAlpha c = true := by unfold pyIsAlpha; simp; omega
  have hu : pyIsUpper c = true := by unfold pyIsUpper; simp; omega
  rw [rotEncChar, if_pos ha, hu]
  simp only [if_true]
  set v : Nat := ((((c : Int) - 65 + r) % 26) + 65).toNat with hv
  have hvb : 65 ≤ v ∧ v ≤ 90 := by constructor <;> omega
  have hva : pyIsAlpha v = true := by unfold pyIsAlpha; simp; omega
  have hvu : pyIsUpper v = true := by unfold pyIsUpper; simp; omega
  refine ⟨hvb.1, hvb.2, ?_⟩
  rw [rotDecChar, if_pos hva, hvu]
  simp only [if_true]
  omega

theorem rot_lower_roundtrip (r : Nat) {c : Nat} (h1 : 97 ≤ c) (h2 : c ≤ 122) :
    97 ≤ rotEncChar r c ∧ rotEncChar r c ≤ 122 ∧ rotDecChar r (rotEncChar r c) = c := by
  have ha : pyIsAlpha c = true := by unfold pyIsAlpha; simp; omega
  have hu : pyIsUpper c = false := by unfold pyIsUpper; simp; omega
  rw [rotEncChar, if_pos ha, hu]
  simp only [Bool.false_eq_true, if_false]
  set v : Nat := ((((c : Int) - 97 + r) % 26) + 97).toNat with hv
  have hvb : 97 ≤ v ∧ v ≤ 122 := by constructor <;> omega
  have hva : pyIsAlpha v = true := by unfold pyIsAlpha; simp; omega
  have hvu : pyIsUpper v = false := by unfold pyIsUpper; simp; omega
  refine ⟨hvb.1, hvb.2, ?_⟩
  rw [rotDecChar, if_pos hva, hvu]
  simp only [Bool.false_eq_true, if_false]
  omega

theorem rotDec_rotEnc (r : Nat) {c : Nat} (h : c < 128) :
    rotDecChar r (rotEncChar r c) = c := by
  by_cases ha : pyIsAlpha c = true
  · rcases pyIsAlpha_ascii_cases h ha with ⟨h1, h2⟩ | ⟨h1, h2⟩
    · exact (rot_upper_roundtrip r h1 h2).2.2
    · exact (rot_lower_roundtrip r h1 h2).2.2
  · rw [rotEncChar, if_neg ha, rotDecChar, if_neg ha]

theorem rotEncChar_lt (r : Nat) {c : Nat} (h : c < 128) : rotEncChar r c < 128 := by
  by_cases ha : pyIsAlpha c = true
  · rcases pyIsAlpha_ascii_cases h ha with ⟨h1, h2⟩ | ⟨h1, h2⟩
    · have := (rot_upper_roundtrip r h1 h2).2.1
      omega
    · have := (rot_lower_roundtrip r h1 h2).2.1
      omega
  · rw [rotEncChar, if_neg ha]
    exact h

theorem rot_map_ascii (r : Nat) {s : List Nat} (h : ∀ c ∈ s, c < 128) :
    ∀ c ∈ s.map (rotEncChar r), c < 128 := by
  intro c hc
  rcases List.mem_map.mp hc with ⟨a, ha, rfl⟩
  exact rotEncChar_lt r (h a ha)

theorem rot_foldl_ascii : ∀ (rs : List Nat) (s : List Nat), (∀ c ∈ s, c < 128) →
    ∀ c ∈ rs.foldl (fun acc r => acc.map (rotEncChar r)) s, c < 128 := by
  intro rs
  induction rs with
  | nil => intro s hs; exact hs
  | cons r rs' ih =>
      intro s hs
      exact ih (s.map (rotEncChar r)) (rot_map_ascii r hs)

theorem rot_map_roundtrip (r : Nat) {s : List Nat} (h : ∀ c ∈ s, c < 128) :
    (s.map (rotEncChar r)).map (rotDecChar r) = s := by
  rw [List.map_map]
  have : ∀ c ∈ s, (rotDecChar r ∘ rotEncChar r) c = id c := by
    intro c hc
    exact rotDec_rotEnc r (h c hc)
  rw [List.map_congr_left this, List.map_id]

theorem rot_foldl_roundtrip : ∀ (rs : List Nat) (s : List Nat), (∀ c ∈ s, c < 128) →
    rs.reverse.foldl (fun acc r => acc.map (rotDecChar r))
      (rs.foldl (fun acc r => acc.map (rotEncChar r)) s) = s := by
  intro rs
  induction rs with
  | nil => intro s _; rfl
  | cons r rs' ih =>
      intro s hs
      simp only [List.reverse_cons, List.foldl_cons, List.foldl_append, List.foldl_nil]
      rw [ih (s.map (rotEncChar r)) (rot_map_ascii r hs)]
      exact rot_map_roundtrip r hs

theorem chunksAux_flatten {α : Type} {n : Nat} (hn : 0 < n) :
    ∀ (blocks : List (List α)) (fuel : Nat), (∀ b ∈ blocks, b.length = n) →
      blocks.flatten.length ≤ fuel → chunksAux n fuel blocks.flatten = blocks := by
  intro blocks
  induction blocks with
  | nil =>
      intro fuel _ _
      cases fuel <;> rfl
  | cons b bs ih =>
      intro fuel hlen hfuel
      have hb : b.length = n := hlen b (by simp)
      have hflat : (b :: bs).flatten = b ++ bs.flatten := by simp
      rw [hflat] at hfuel ⊢
      have hfl : (b ++ bs.flatten).length = n + bs.flatten.length := by
        simp [hb]
      rcases b with _ | ⟨c, btl⟩
      · simp at hb
        omega
      cases fuel with
      | zero => omega
      | succ f =>
          have hcons : (c :: btl) ++ bs.flatten = c :: (btl ++ bs.flatten) := rfl
          rw [hcons]
          show (c :: (btl ++ bs.flatten)).take n ::
            chunksAux n f ((c :: (btl ++ bs.flatten)).drop n) = (c :: btl) :: bs
          rw [← hcons]
          have ht : ((c :: btl) ++ bs.flatten).take n = c :: btl := by
            rw [← hb]
            exact List.take_left _ _
          have hd : ((c :: btl) ++ bs.flatten).drop n = bs.flatten := by
            rw [← hb]
            exact List.drop_left _ _
          rw [ht, hd, ih f (fun x hx => hlen x (by simp [hx])) (by omega)]

theorem pyChunks_flatten {α : Type} {n : Nat} (hn : 0 < n) (blocks : List (List α))
    (hlen : ∀ b ∈ blocks, b.length = n) : pyChunks n blocks.flatten = blocks :=
  chunksAux_flatten hn blocks blocks.flatten.length hlen (le_refl _)

theorem filterMap_len8 {α β : Type} (g : List α → β) :
    ∀ bs : List (List α), (∀ b ∈ bs, b.length = 8) →
      (bs.filterMap fun byte => if byte.length = 8 then some (g byte) else none) =
        bs.map g := by
  intro bs
  induction bs with
  | nil => intro _; rfl
  | cons b rest ih =>
      intro h
      rw [List.filterMap_cons, if_pos (h b (by simp)), List.map_cons,
        ih fun x hx => h x (by simp [hx])]

theorem pyBinStr_eq_flatten (data : List Nat) :
    pyBinStr data = (data.map pyFormat08b).flatten := by
  induction data with
  | nil => rfl
  | cons c rest ih =>
      show pyFormat08b c ++ rest.flatMap pyFormat08b = _
      simp [ih]
      rfl

theorem pyFormat08b_length {c : Nat} (h : c < 256) : (pyFormat08b c).length = 8 := by
  have key : ∀ n : Fin 256, (pyFormat08b n.val).length = 8 := by decide
  exact key ⟨c, h⟩

theorem bits8_roundtrip : ∀ b : List Bool, b.length = 8 →
    pyFormat08b (binToNat b) = b ∧ binToNat b < 256 := by
  intro b hb
  rcases b with _ | ⟨a1, _ | ⟨a2, _ | ⟨a3, _ | ⟨a4, _ | ⟨a5, _ | ⟨a6, _ | ⟨a7, _ | ⟨a8, _ | ⟨a9, t⟩⟩⟩⟩⟩⟩⟩⟩⟩ <;>
    simp only [List.length_nil, List.length_cons] at hb <;> try omega
  cases a1 <;> cases a2 <;> cases a3 <;> cases a4 <;> cases a5 <;> cases a6 <;>
    cases a7 <;> cases a8 <;> exact ⟨by decide, by decide⟩

theorem binToNat_pyFormat08b {c : Nat} (h : c < 256) :
    binToNat (pyFormat08b c) = c := by
  have key : ∀ n : Fin 256, binToNat (pyFormat08b n.val) = n.val := by decide
  exact key ⟨c, h⟩

theorem rotSlice_back {s : Nat} (h1 : 1 ≤ s) (h2 : s ≤ 7) (b : List Bool)
    (hb : b.length = 8) : pyRotSliceBack s (b.drop s ++ b.take s) = b := by
  unfold pyRotSliceBack
  rw [if_neg (by omega)]
  have hlen : (b.drop s ++ b.take s).length = 8 := by
    simp
    omega
  have hd : (b.drop s).length = 8 - s := by simp [hb]
  rw [hlen, show (8 - s : Nat) = (b.drop s).length from hd.symm,
    List.drop_left, List.take_left, List.take_append_drop]

/-- C1 (amended): the encode-then-decode round trip holds for the
`fast_rotation` technique on every string of ASCII characters (any rotation
draws), and for the `fast_binary` technique on every string of characters
with code points below 256 (shift drawn from 1..7). It does NOT hold for
arbitrary non-ASCII input (see the counterexample). -/
theorem C1_round_trip_amended :
    (∀ (rotations : List Nat) (data : List Nat), (∀ c ∈ data, c < 128) →
      fastRotationDecode (fastRotationEncode rotations data).encoded
        (fastRotationEncode rotations data).metadata = data) ∧
    (∀ (shift : Nat) (data : List Nat), 1 ≤ shift → shift ≤ 7 →
      (∀ c ∈ data, c < 256) →
      fastBinaryDecode (fastBinaryEncode shift data).encoded
        (fastBinaryEncode shift data).metadata = data) := by
  constructor
  · intro rotations data hdata
    simp only [fastRotationEncode, fastRotationDecode]
    have hra : ∀ c ∈ rotations.foldl (fun acc r => acc.map (rotEncChar r)) data, c < 128 :=
      rot_foldl_ascii rotations data hdata
    rw [utf8e_ascii hra, b64_roundtrip _ fun b hb => by have := hra b hb; omega,
      utf8d_ascii hra]
    exact rot_foldl_roundtrip rotations data hdata
  · intro shift data h1 h7 hdata
    have hbl : ∀ b ∈ data.map pyFormat08b, b.length = 8 := by
      intro b hb
      rcases List.mem_map.mp hb with ⟨c, hc, rfl⟩
      exact pyFormat08b_length (hdata c hc)
    have hrotl : ∀ b ∈ (data.map pyFormat08b).map
        (fun byte => byte.drop shift ++ byte.take shift), b.length = 8 := by
      intro b hb
      rcases List.mem_map.mp hb with ⟨x, hx, rfl⟩
      have := hbl x hx
      simp
      omega
    have henc : (fastBinaryEncode shift data).encoded =
        b64e (((data.map pyFormat08b).map
          (fun byte => byte.drop shift ++ byte.take shift)).map binToNat) := by
      simp only [fastBinaryEncode, latin1e]
      rw [pyBinStr_eq_flatten, pyChunks_flatten (by omega) _ hbl, filterMap_len8 _ _ hbl,
        pyChunks_flatten (by omega) _ hrotl, filterMap_len8 _ _ hrotl]
    have hmeta : (fastBinaryEncode shift data).metadata =
        { shift := shift, original_length := data.length } := rfl
    rw [henc, hmeta]
    simp only [fastBinaryDecode, latin1d]
    have hlt : ∀ b ∈ ((data.map pyFormat08b).map
        (fun byte => byte.drop shift ++ byte.take shift)).map binToNat, b < 256 := by
      intro b hb
      rcases List.mem_map.mp hb with ⟨x, hx, rfl⟩
      exact (bits8_roundtrip x (hrotl x hx)).2
    rw [b64_roundtrip _ hlt, pyBinStr_eq_flatten]
    have hfmt : (((data.map pyFormat08b).map
        (fun byte => byte.drop shift ++ byte.take shift)).map binToNat).map pyFormat08b =
        (data.map pyFormat08b).map (fun byte => byte.drop shift ++ byte.take shift) := by
      rw [List.map_map]
      have : ∀ x ∈ (data.map pyFormat08b).map
          (fun byte => byte.drop shift ++ byte.take shift),
          (pyFormat08b ∘ binToNat) x = id x := by
        intro x hx
        exact (bits8_roundtrip x (hrotl x hx)).1
      rw [List.map_congr_left this, List.map_id]
    rw [hfmt, pyChunks_flatten (by omega) _ hrotl, filterMap_len8 _ _ hrotl]
    have hback : ((data.map pyFormat08b).map
        (fun byte => byte.drop shift ++ byte.take shift)).map (pyRotSliceBack shift) =
        data.map pyFormat08b := by
      rw [List.map_map]
      have : ∀ x ∈ data.map pyFormat08b,
          (pyRotSliceBack shift ∘ fun byte => byte.drop shift ++ byte.take shift) x = id x := by
        intro x hx
        exact rotSlice_back h1 h7 x (hbl x hx)
      rw [List.map_congr_left this, List.map_id]
    rw [hback, pyChunks_flatten (by omega) _ hbl, filterMap_len8 _ _ hbl, List.map_map]
    have : ∀ c ∈ data, (binToNat ∘ pyFormat08b) c = id c := by
      intro c hc
      exact binToNat_pyFormat08b (hdata c hc)
    rw [List.map_congr_left this, List.map_id]

/-- C1: the round-trip law as stated fails on non-ASCII input: the rotation
technique maps `'é'` (code point 233, alphabetic and lowercase for Python)
into the ASCII range and decodes it to `'g'`, and the binary technique drops
the ninth bit of `'Ā'` (code point 256) and decodes it to `'\x80'`. -/
theorem C1_counterexample :
    (fastRotationDecode (fastRotationEncode [1, 2, 3] (S "é")).encoded
      (fastRotationEncode [1, 2, 3] (S "é")).metadata ≠ S "é") ∧
    (fastBinaryDecode (fastBinaryEncode 1 [256]).encoded
      (fastBinaryEncode 1 [256]).metadata ≠ [256]) := by
  constructor <;> decide

/-- Witness for `C1_round_trip_amended` at concrete inputs. -/
theorem C1_round_trip_amended_witness :
    fastRotationDecode (fastRotationEncode [1, 2, 3] (S "Hello, World!")).encoded
      (fastRotationEncode [1, 2, 3] (S "Hello, World!")).metadata = S "Hello, World!" ∧
    fastBinaryDecode (fastBinaryEncode 3 (S "Hi")).encoded
      (fastBinaryEncode 3 (S "Hi")).metadata = S "Hi" :=
  ⟨C1_round_trip_amended.1 [1, 2, 3] (S "Hello, World!") (by decide),
   C1_round_trip_amended.2 3 (S "Hi") (by decide) (by decide) (by decide)⟩

/-- C2 (amended): every fast encoder stores its randomly drawn per-call
parameters verbatim in the metadata it returns (the XOR key list, the simple
key, the rotation amounts, the bit shift, the substitution map built from the
shuffle, and the lookup table built from the shuffled character list). The
neural technique violates the claim: see the counterexample. -/
theorem C2_random_params_stored_amended :
    ∀ (zc : List Nat → List Nat) (keys : List Nat) (key : Nat) (rotations : List Nat)
      (shift : Nat) (shuffled shuffledL data : List Nat),
      (fastXOREncode zc keys data).metadata.keys = keys ∧
      (simpleEncode key data).metadata.key = key ∧
      (fastRotationEncode rotations data).metadata.rotations = rotations ∧
      (fastBinaryEncode shift data).metadata.shift = shift ∧
      (fastBase64Encode shuffled data).metadata.char_map = fastB64Chars.zip shuffled ∧
      (fastLookupEncode shuffledL data).metadata.lookup_table =
        shuffledL.enum.foldl (fun t p => dictSet t p.2 (lookupToken p.1)) [] := by
  intros
  exact ⟨rfl, rfl, rfl, rfl, rfl, rfl⟩

/-- C2: counterexample for the neural technique: two valid `np.random.choice`
draws of the first-layer placement give different embedding index sequences
yet bit-for-bit identical metadata (architecture, original_length,
binary_length, network_depth), so the placement cannot be recovered from the
metadata. -/
theorem C2_counterexample :
    (neuralEncodeTrace (List.range 16) (S "AB")).metadata =
      (neuralEncodeTrace ((List.range 16).map (· + 16)) (S "AB")).metadata ∧
    (neuralEncodeTrace (List.range 16) (S "AB")).dataIndices ≠
      (neuralEncodeTrace ((List.range 16).map (· + 16)) (S "AB")).dataIndices ∧
    ValidChoice 128 16 (List.range 16) ∧
    ValidChoice 128 16 ((List.range 16).map (· + 16)) := by
  refine ⟨by decide, by decide, ?_, ?_⟩ <;>
    exact ⟨by decide, by decide, by decide⟩

theorem pySplit_ne_nil (sep : Nat) : ∀ l, pySplit sep l ≠ [] := by
  intro l
  induction l with
  | nil => simp [pySplit]
  | cons c rest ih =>
      simp only [pySplit]
      by_cases hc : (c == sep) = true
      · simp [hc]
      · simp only [hc, if_false]
        rcases hr : pySplit sep rest with _ | ⟨g, gs⟩
        · exact absurd hr ih
        · simp

theorem pySplit_no_sep {sep : Nat} : ∀ x : List Nat, sep ∉ x → pySplit sep x = [x] := by
  intro x
  induction x with
  | nil => intro _; rfl
  | cons c rest ih =>
      intro h
      have hc : (c == sep) = false := by
        simp only [beq_eq_false_iff_ne, ne_eq]
        intro hcc
        exact h (by simp [hcc])
      simp only [pySplit, hc, ih fun hm => h (by simp [hm])]
      simp

theorem pySplit_append {sep : Nat} :
    ∀ (x r : List Nat), sep ∉ x →
      pySplit sep (x ++ r) = (pySplit sep r).modifyHead (x ++ ·) := by
  intro x
  induction x with
  | nil =>
      intro r _
      simp only [List.nil_append]
      cases pySplit sep r <;> simp
  | cons c rest ih =>
      intro r h
      have hc : (c == sep) = false := by
        simp only [beq_eq_false_iff_ne, ne_eq]
        intro hcc
        exact h (by simp [hcc])
      have hr := ih r fun hm => h (by simp [hm])
      simp only [List.cons_append, pySplit, hc, List.append_eq, Bool.false_eq_true, if_false]
      rcases hs : pySplit sep r with _ | ⟨g, gs⟩
      · exact absurd hs (pySplit_ne_nil sep r)
      · rw [hr, hs]
        simp

theorem pySplit_join (sep : Nat) :
    ∀ hs : List (List Nat), hs ≠ [] → (∀ h ∈ hs, sep ∉ h) →
      pySplit sep (pyJoin [sep] hs) = hs := by
  intro hs
  induction hs with
  | nil => intro h _; exact absurd rfl h
  | cons x xs ih =>
      intro _ hsep
      rcases xs with _ | ⟨y, ys⟩
      · exact pySplit_no_sep x (hsep x (by simp))
      · have hjoin : pyJoin [sep] (x :: y :: ys) = x ++ (sep :: pyJoin [sep] (y :: ys)) := by
          show x ++ [sep] ++ pyJoin [sep] (y :: ys) = _
          simp
        rw [hjoin, pySplit_append x _ (hsep x (by simp))]
        have hstep : pySplit sep (sep :: pyJoin [sep] (y :: ys)) =
            [] :: pySplit sep (pyJoin [sep] (y :: ys)) := by
          simp [pySplit]
        rw [hstep, ih (by simp) fun h hm => hsep h (by simp [hm])]
        simp

/-- C3 (amended): `FastHashEncoder.decode` never raises on a payload token
missing from the metadata table — the `if h in hash_map` guard silently drops
it, and decode returns the concatenation of the chunks of only those tokens
that are present, in payload order. -/
theorem C3_silent_skip_amended :
    ∀ (table : List (List Nat × List Nat)) (n : Nat) (hs : List (List Nat)),
      hs ≠ [] → (∀ h ∈ hs, (124 : Nat) ∉ h) →
      fastHashDecode (pyJoin [124] hs) { hash_map := table, original_length := n } =
        (hs.filterMap fun h => dictGet? table h).flatten := by
  intro table n hs h1 h2
  simp only [fastHashDecode]
  rw [pySplit_join 124 hs h1 h2]

/-- Witness for `C3_silent_skip_amended`: a two-token payload whose second
token has no table entry decodes to just the first chunk. -/
theorem C3_silent_skip_amended_witness :
    fastHashDecode (pyJoin [124] [S "61616161", S "62626262"])
      { hash_map := [(S "61616161", S "AAAAAAAA")], original_length := 16 } =
      S "AAAAAAAA" :=
  (C3_silent_skip_amended [(S "61616161", S "AAAAAAAA")] 16
    [S "61616161", S "62626262"] (by decide) (by decide)).trans (by decide)

/-- C3: counterexample to "a payload token with no matching entry in the
metadata table causes a DecodeError": `FastHashEncoder.decode` on a payload
whose second token is absent from the table returns the partial string for
the remaining token — no error of any kind, and the result is shorter than
`original_length`. -/
theorem C3_counterexample :
    fastHashDecode (S "54ce3bc7|00000000")
      { hash_map := [(S "54ce3bc7", S "chunk111")], original_length := 16 } =
      S "chunk111" ∧
    (fastHashDecode (S "54ce3bc7|00000000")
      { hash_map := [(S "54ce3bc7", S "chunk111")], original_length := 16 }).length ≠ 16 := by
  exact ⟨by decide, by decide⟩

theorem le4_lt : ∀ x ∈ le4 w, x < 256 := by
  intro x hx
  simp only [le4, List.mem_cons, List.mem_singleton, List.not_mem_nil, or_false] at hx
  rcases hx with h | h | h | h <;> rw [h] <;> omega

theorem hexDigit_lt {x : Nat} (h : x ≤ 15) : hexDigit x < 103 := by
  unfold hexDigit
  split <;> omega

theorem md5HexDigest_lt {msg : List Nat} : ∀ c ∈ md5HexDigest msg, c < 103 := by
  intro c hc
  unfold md5HexDigest at hc
  rcases List.mem_flatMap.mp hc with ⟨b, hb, hcb⟩
  have hblt : b < 256 := by
    unfold md5Digest at hb
    simp only [List.mem_append] at hb
    rcases hb with ((hb' | hb') | hb') | hb' <;> exact le4_lt _ hb'
  simp only [List.mem_cons, List.mem_singleton, List.not_mem_nil, or_false] at hcb
  rcases hcb with rfl | rfl
  · exact hexDigit_lt (by omega)
  · exact hexDigit_lt (by omega)

theorem md5Hex8_no_pipe (chunk : List Nat) : (124 : Nat) ∉ md5Hex8 chunk := by
  intro hmem
  have h := md5HexDigest_lt 124 (List.mem_of_mem_take hmem)
  omega

/-- C4 (amended): `FastHashEncoder` does not disambiguate colliding chunks:
whenever two distinct 8-character chunks have the same truncated-MD5 token,
the dictionary assignment `hash_map[chunk_hash] = chunk` silently overwrites
the first chunk with the second, and the encode-then-decode round trip returns
the second chunk twice instead of the original input. -/
theorem C4_collision_overwrites_amended :
    ∀ c1 c2 : List Nat, md5Hex8 c1 = md5Hex8 c2 → c1 ≠ c2 →
      c1.length = 8 → c2.length = 8 →
      (fastHashEncode (c1 ++ c2)).metadata.hash_map = [(md5Hex8 c2, c2)] ∧
      fastHashDecode (fastHashEncode (c1 ++ c2)).encoded
        (fastHashEncode (c1 ++ c2)).metadata = c2 ++ c2 := by
  intro c1 c2 hcol hne h1 h2
  have hflat : [c1, c2].flatten = c1 ++ c2 := by simp
  have hch : pyChunks 8 (c1 ++ c2) = [c1, c2] := by
    rw [← hflat]
    refine pyChunks_flatten (by omega) [c1, c2] ?_
    intro b hb
    simp only [List.mem_cons, List.not_mem_nil, or_false] at hb
    rcases hb with rfl | rfl
    · exact h1
    · exact h2
  have henc : fastHashEncode (c1 ++ c2) =
      { encoded := pyJoin [124] [md5Hex8 c2, md5Hex8 c2],
        metadata := { hash_map := [(md5Hex8 c2, c2)],
                      original_length := (c1 ++ c2).length } } := by
    simp only [fastHashEncode, hch, List.foldl_cons, List.foldl_nil, hcol]
    simp [dictSet]
  refine ⟨by rw [henc], ?_⟩
  rw [henc]
  have hsplit : pySplit 124 (pyJoin [124] [md5Hex8 c2, md5Hex8 c2]) =
      [md5Hex8 c2, md5Hex8 c2] := by
    refine pySplit_join 124 _ (by simp) ?_
    intro h hm
    simp only [List.mem_cons, List.not_mem_nil, or_false] at hm
    rcases hm with rfl | rfl <;> exact md5Hex8_no_pipe c2
  simp only [fastHashDecode, hsplit]
  simp [dictGet?]

/-- Witness for `C4_collision_overwrites_amended` at a real truncated-MD5
collision: `md5('uoiixtdj')[:8] == md5('nxzgtelp')[:8] == '54ce3bc7'`. -/
theorem C4_collision_overwrites_amended_witness :
    (fastHashEncode (S "uoiixtdj" ++ S "nxzgtelp")).metadata.hash_map =
      [(md5Hex8 (S "nxzgtelp"), S "nxzgtelp")] ∧
    fastHashDecode (fastHashEncode (S "uoiixtdj" ++ S "nxzgtelp")).encoded
      (fastHashEncode (S "uoiixtdj" ++ S "nxzgtelp")).metadata =
      S "nxzgtelp" ++ S "nxzgtelp" :=
  C4_collision_overwrites_amended (S "uoiixtdj") (S "nxzgtelp")
    (by decide) (by decide) (by decide) (by decide)

/-- C4: counterexample at an explicit input: the input
`'uoiixtdjnxzgtelp'` consists of two distinct 8-character chunks whose
truncated-MD5 tokens collide (`'54ce3bc7'`); the encoder builds a one-entry
table in which the second chunk has overwritten the first, and the round trip
yields `'nxzgtelpnxzgtelp'`, not the input. -/
theorem C4_counterexample :
    (fastHashEncode (S "uoiixtdjnxzgtelp")).metadata.hash_map =
      [(S "54ce3bc7", S "nxzgtelp")] ∧
    fastHashDecode (fastHashEncode (S "uoiixtdjnxzgtelp")).encoded
      (fastHashEncode (S "uoiixtdjnxzgtelp")).metadata = S "nxzgtelpnxzgtelp" ∧
    S "nxzgtelpnxzgtelp" ≠ S "uoiixtdjnxzgtelp" := by
  exact ⟨by decide, by decide, by decide⟩

theorem land254_mod2 (c : Nat) : (c &&& 254) % 2 = 0 := by
  have h : (c &&& 254) &&& 1 = c &&& (254 &&& 1) := Nat.land_assoc c 254 1
  rw [Nat.and_one_is_mod] at h
  simpa using h

theorem lsb_zero (c : Nat) : ((c &&& 254) ||| 0) &&& 1 = 0 := by
  rw [Nat.and_one_is_mod]
  have h2 : ((c &&& 254) ||| 0) = c &&& 254 := by simp
  rw [h2]
  exact land254_mod2 c

theorem lsb_one (c : Nat) : ((c &&& 254) ||| 1) &&& 1 = 1 := by
  simp [Nat.and_one_is_mod]

theorem extract_apply_prefix : ∀ (bits : List Bool) (cover : List Nat),
    bits.length ≤ cover.length →
    (extractStegLayers (applyStegLayers cover bits)).take bits.length = bits := by
  intro bits
  induction bits with
  | nil => simp
  | cons b bs ih =>
      intro cover hlen
      rcases cover with _ | ⟨c, cs⟩
      · simp at hlen
      · simp only [applyStegLayers, extractStegLayers, List.map_cons, List.length_cons,
          List.take_succ_cons]
        congr 1
        · cases b
          · simp only [Bool.false_eq_true, if_false, lsb_zero]
            decide
          · simp only [if_true, lsb_one]
            decide
        · exact ih cs (by simpa using hlen)

theorem loremWords_word_len : ∀ w ∈ loremWords, 1 ≤ w.length := by decide

theorem getD_mod_mem {l : List (List Nat)} (h : 0 < l.length) (i : Nat) (d : List Nat) :
    l.getD (i % l.length) d ∈ l := by
  have hlt : i % l.length < l.length := Nat.mod_lt _ h
  rw [List.getD_eq_getElem l d hlt]
  exact List.getElem_mem hlt

theorem loremCoverWords_count (rng : Nat → LoremDraw) :
    ∀ (bits : List Bool) (k : Nat),
      bits.length ≤ (loremCoverWords rng k bits).length := by
  intro bits
  induction bits with
  | nil => simp [loremCoverWords]
  | cons b bs ih =>
      intro k
      have := ih (k + 1)
      simp only [loremCoverWords, List.length_cons, List.length_append]
      split <;> simp <;> omega

theorem loremCoverWords_mem (rng : Nat → LoremDraw) :
    ∀ (bits : List Bool) (k : Nat) (w : List Nat),
      w ∈ loremCoverWords rng k bits → w ∈ loremWords := by
  intro bits
  induction bits with
  | nil => intro k w h; simp [loremCoverWords] at h
  | cons b bs ih =>
      intro k w hw
      simp only [loremCoverWords, List.mem_append, List.mem_cons] at hw
      rcases hw with (rfl | hw) | hw
      · by_cases he : (loremWords.filter
            (fun x => x.length % 2 == (if b then 1 else 0))).isEmpty
        · rw [if_pos he]
          exact getD_mod_mem (by decide) _ _
        · rw [if_neg he]
          have hpos : 0 < (loremWords.filter
              (fun x => x.length % 2 == (if b then 1 else 0))).length := by
            rcases hl : loremWords.filter
                (fun x => x.length % 2 == (if b then 1 else 0)) with _ | ⟨x, xs⟩
            · rw [hl] at he
              simp at he
            · rw [hl]
              simp
          exact List.mem_of_mem_filter (getD_mod_mem hpos ((rng k).choiceIdx) [])
      · rcases hs : (rng k).extra with _ | _
        · rw [hs] at hw
          simp at hw
        · rw [hs] at hw
          simp only [if_true, List.mem_singleton] at hw
          rw [hw]
          exact getD_mod_mem (by decide) _ _
      · exact ih (k + 1) w hw

theorem pyJoin_space_len : ∀ ws : List (List Nat), (∀ w ∈ ws, 1 ≤ w.length) →
    ws.length ≤ (pyJoin [32] ws).length := by
  intro ws
  induction ws with
  | nil => simp [pyJoin]
  | cons x xs ih =>
      intro h
      rcases xs with _ | ⟨y, ys⟩
      · have := h x (by simp)
        simpa [pyJoin] using this
      · have hx := h x (by simp)
        have hr := ih fun w hw => h w (by simp [hw])
        show (y :: ys).length + 1 ≤ (x ++ [32] ++ pyJoin [32] (y :: ys)).length
        simp only [List.length_append, List.length_cons] at hr ⊢
        omega

/-- C5 (amended): for the `lorem_ipsum` cover type, the cover is always long
enough to carry every bit of the input's binary representation (the word loop
emits at least one word of at least one character per bit, joined by spaces),
and every embedded bit is recovered by the least-significant-bit extraction
rule. The fixed-size cover types violate the claim: see the counterexample. -/
theorem C5_lorem_capacity_amended :
    ∀ (rng : Nat → LoremDraw) (binary_data : List Bool),
      binary_data.length ≤ (loremCover rng binary_data).length ∧
      (extractStegLayers (applyStegLayers (loremCover rng binary_data)
        binary_data)).take binary_data.length = binary_data := by
  intro rng bits
  have hwords := loremCoverWords_count rng bits 0
  have hmem : ∀ w ∈ loremCoverWords rng 0 bits, 1 ≤ w.length := fun w hw =>
    loremWords_word_len w (loremCoverWords_mem rng bits 0 w hw)
  have hcap : bits.length ≤ (loremCover rng bits).length := by
    unfold loremCover
    have := pyJoin_space_len _ hmem
    simp only [List.length_append, List.length_cons, List.length_nil]
    omega
  exact ⟨hcap, extract_apply_prefix bits _ hcap⟩

/-- C5: counterexample: for the `fake_data` cover type and an input of 200 NUL
characters (1600 bits), the record loop stops at its hard cap of 20 records,
so the JSON cover string is only 1591 characters long — too short to carry
every bit — and the least-significant-bit channel of the layered cover holds
fewer positions than the input has bits. (Random choices fixed to index 0.) -/
theorem C5_counterexample :
    (jsonRecords (fakeDataCover (fun _ => 0) (fun _ => 0)
        (pyBinStr (List.replicate 200 0)))).length <
      (pyBinStr (List.replicate 200 0)).length ∧
    (extractStegLayers (applyStegLayers
        (jsonRecords (fakeDataCover (fun _ => 0) (fun _ => 0)
          (pyBinStr (List.replicate 200 0))))
        (pyBinStr (List.replicate 200 0)))).length <
      (pyBinStr (List.replicate 200 0)).length := by
  exact ⟨by decide, by decide⟩

theorem dictGet?_isSome_of_mem [BEq α] [LawfulBEq α] {β : Type} :
    ∀ (l : List (α × β)) (k : α), k ∈ l.map (·.1) → (dictGet? l k).isSome := by
  intro l
  induction l with
  | nil => intro k h; simp at h
  | cons p rest ih =>
      intro k h
      simp only [List.map_cons, List.mem_cons] at h
      by_cases he : (p.1 == k) = true
      · rcases p with ⟨k', v⟩
        simp [dictGet?, he]
      · rcases p with ⟨k', v⟩
        rcases h with rfl | h
        · simp at he
        · simp only [dictGet?, he, if_false]
          exact ih k h

theorem dictGet?_eq_none_of_not_mem [BEq α] [LawfulBEq α] {β : Type} :
    ∀ (l : List (α × β)) (k : α), k ∉ l.map (·.1) → dictGet? l k = none := by
  intro l
  induction l with
  | nil => intro k _; rfl
  | cons p rest ih =>
      intro k h
      rcases p with ⟨k', v⟩
      simp only [List.map_cons, List.mem_cons, not_or] at h
      have he : (k' == k) = false := by
        simp only [beq_eq_false_iff_ne, ne_eq]
        intro hk
        exact h.1 hk.symm
      simp only [dictGet?, he, if_false]
      exact ih k h.2

/-- C6 (amended): looking up a technique name absent from the registry
returns `None` (`dict.get`); no `UnsupportedTechniqueError` is raised — no
such error class exists in the codebase — and `create_encoder` likewise
returns `None`. -/
theorem C6_lookup_absent_none_amended :
    ∀ (f : DepFlags) (name : String), name ∉ getAvailableTechniques f →
      getEncoderClass f name = none ∧ createEncoder f name = none := by
  intro f name h
  have h1 : getEncoderClass f name = none :=
    dictGet?_eq_none_of_not_mem (encoderRegistry f) name h
  refine ⟨h1, ?_⟩
  simp [createEncoder, h1]

/-- Witness for `C6_lookup_absent_none_amended`: with no optional dependency
available, `'dna'` is not registered and the lookup yields `None`. -/
theorem C6_lookup_absent_none_amended_witness :
    getEncoderClass ⟨false, false, false, false, false, false, false⟩ "dna" = none ∧
    createEncoder ⟨false, false, false, false, false, false, false⟩ "dna" = none :=
  C6_lookup_absent_none_amended ⟨false, false, false, false, false, false, false⟩
    "dna" (by decide)

/-- C6: counterexample to "lookup of an unknown name raises
UnsupportedTechniqueError": `get_encoder_class('nonexistent_technique')` is
`_ENCODER_REGISTRY.get(...)`, which returns `None` rather than raising, even
with every optional dependency available. -/
theorem C6_counterexample :
    getEncoderClass ⟨true, true, true, true, true, true, true⟩
      "nonexistent_technique" = none ∧
    createEncoder ⟨true, true, true, true, true, true, true⟩
      "nonexistent_technique" = none := by
  exact ⟨by decide, by decide⟩

/-- C7: the hard-coded fast-technique list is an order-stable subset (in fact
a prefix) of the registry's key list for every availability configuration,
and looking up any listed technique yields an encoder class. -/
theorem C7_registry_stability :
    ∀ f : DepFlags,
      getFastTechniques.Sublist (getAvailableTechniques f) ∧
      ∀ name ∈ getAvailableTechniques f, (getEncoderClass f name).isSome := by
  intro f
  constructor
  · show getFastTechniques.Sublist ((encoderRegistry f).map (·.1))
    have hsplit : ∃ rest : List (String × EncoderClass),
        encoderRegistry f =
          [("fast_xor", EncoderClass.fastXOR), ("fast_base64", EncoderClass.fastBase64),
           ("fast_rotation", EncoderClass.fastRotation), ("fast_hash", EncoderClass.fastHash),
           ("fast_binary", EncoderClass.fastBinary), ("fast_lookup", EncoderClass.fastLookup),
           ("simple", EncoderClass.simple)] ++ rest :=
      ⟨_, rfl⟩
    rcases hsplit with ⟨rest, hr⟩
    rw [hr, List.map_append]
    exact List.sublist_append_left _ _
  · intro name hname
    exact dictGet?_isSome_of_mem (encoderRegistry f) name hname

/-- Witness for `C7_registry_stability` with every flag set and the name
`'fast_xor'`. -/
theorem C7_registry_stability_witness :
    getFastTechniques.Sublist
      (getAvailableTechniques ⟨true, true, true, true, true, true, true⟩) ∧
    (getEncoderClass ⟨true, true, true, true, true, true, true⟩ "fast_xor").isSome :=
  ⟨(C7_registry_stability _).1,
   (C7_registry_stability _).2 "fast_xor" (by decide)⟩

/-- C8: for every combination of availability flags the registry is a total
construction containing all seven fast techniques, every advanced technique
it lists is registered, and each advanced name is present exactly when its
dependency flag is set. -/
theorem C8_graceful_degradation :
    ∀ f : DepFlags,
      (∀ n ∈ getFastTechniques, n ∈ getAvailableTechniques f) ∧
      (∀ n ∈ getAdvancedTechniques f, n ∈ getAvailableTechniques f) ∧
      ("quantum" ∈ getAvailableTechniques f ↔ f.quantum = true) ∧
      ("dna" ∈ getAvailableTechniques f ↔ f.dna = true) ∧
      ("fractal" ∈ getAvailableTechniques f ↔ f.fractal = true) ∧
      ("neural" ∈ getAvailableTechniques f ↔ f.neural = true) ∧
      ("steganographic" ∈ getAvailableTechniques f ↔ f.steganographic = true) ∧
      ("runtime" ∈ getAvailableTechniques f ↔ f.runtime = true) ∧
      ("tensor" ∈ getAvailableTechniques f ↔ f.tensor = true) := by
  intro f
  rcases f with ⟨q, d, fr, ne, st, ru, te⟩
  cases q <;> cases d <;> cases fr <;> cases ne <;> cases st <;> cases ru <;> cases te <;>
    decide

/-- Witness for `C8_graceful_degradation`: with every dependency missing, the
fast technique `'fast_xor'` is still registered. -/
theorem C8_graceful_degradation_witness :
    "fast_xor" ∈ getAvailableTechniques ⟨false, false, false, false, false, false, false⟩ :=
  (C8_graceful_degradation ⟨false, false, false, false, false, false, false⟩).1
    "fast_xor" (by decide)

/-- C9: every fast encoder (and the simple encoder) returns metadata whose
`original_length` entry is the character count of the input string —
`len(data)` in the sources, the code-point count here — independent of every
random draw. -/
theorem C9_original_length :
    ∀ (data : List Nat) (zc : List Nat → List Nat) (keys : List Nat) (key : Nat)
      (rotations : List Nat) (shift : Nat) (shuffled shuffledL : List Nat),
      (fastXOREncode zc keys data).metadata.original_length = data.length ∧
      (fastBase64Encode shuffled data).metadata.original_length = data.length ∧
      (fastRotationEncode rotations data).metadata.original_length = data.length ∧
      (fastHashEncode data).metadata.original_length = data.length ∧
      (fastBinaryEncode shift data).metadata.original_length = data.length ∧
      (fastLookupEncode shuffledL data).metadata.original_length = data.length ∧
      (simpleEncode key data).metadata.original_length = data.length := by
  intros
  exact ⟨rfl, rfl, rfl, rfl, rfl, rfl, rfl⟩

/-- C10: decode is a pure deterministic function of payload and metadata:
under any two ambient random-module states the decoded string is the same,
and the state is returned unchanged — all randomness is drawn during encode
only. -/
theorem C10_decode_deterministic :
    ∀ (p : List Nat) (m : SimpleMetadata) (zd : List Nat → List Nat)
      (p' : List Nat) (m' : FastXORMetadata) (g₁ g₂ : PyRandomState),
      (simpleDecodeR p m g₁).1 = (simpleDecodeR p m g₂).1 ∧
      (simpleDecodeR p m g₁).2 = g₁ ∧
      (fastXORDecodeR zd p' m' g₁).1 = (fastXORDecodeR zd p' m' g₂).1 ∧
      (fastXORDecodeR zd p' m' g₁).2 = g₁ := by
  intros
  exact ⟨rfl, rfl, rfl, rfl⟩
